import Mathlib

/-!
Verification development for the discriminant-subspace engine of
jimregan/libfacerec: the `subspace::project` / `subspace::reconstruct`
linear transforms, the `LDA` class (`src/unnamed/part_000`, which is
`include/subspace.hpp`), and the matrix utilities of
`src/include/helper.hpp` (`remove_dups`, `cv::argsort`,
`cv::sortMatrixByColumn`).

The embedding works over exact rationals.  An OpenCV `cv::Mat`
(single-channel, numeric) is modelled as a pair of dimensions together
with a total entry function; entries outside the stated bounds are
irrelevant garbage, and matrix equality is the dimension-respecting
entrywise relation `Mat.EqDim`.  OpenCV calls that raise
(`CV_Error(CV_StsBadArg, ...)`, failed `CV_Assert` size checks inside
`gemm` / `Mat::col` / the ranged `Mat` constructor) are modelled by
`Except Err` / an error flag.
-/

unseal Rat.add Rat.mul Rat.inv Rat.sub Rat.ofScientific

deriving instance DecidableEq for Except

/-- Error kinds raised by the modelled code: `CV_Error(CV_StsBadArg, ...)`
becomes `invalidArgument`; a failed `CV_Assert` (size checks inside
`gemm`, `Mat::col`, the ranged `Mat` constructor) becomes `assertFail`. -/
inductive Err where
  | invalidArgument
  | assertFail
deriving DecidableEq, Repr

/-- Model of a single-channel numeric `cv::Mat` with exact rational
entries.  `entry i j` is the value at row `i`, column `j`; values at
`i ≥ rows` or `j ≥ cols` are meaningless. -/
structure Mat where
  rows : ℕ
  cols : ℕ
  entry : ℕ → ℕ → ℚ

namespace Mat

/-- `cv::Mat::total()`: the number of elements. -/
def total (A : Mat) : ℕ := A.rows * A.cols

/-- `cv::Mat::zeros(r, c, type)`. -/
def zeros (r c : ℕ) : Mat := ⟨r, c, fun _ _ => 0⟩

/-- `cv::add(A, B, dst)` for same-sized operands (entrywise sum). -/
def add (A B : Mat) : Mat := ⟨A.rows, A.cols, fun i j => A.entry i j + B.entry i j⟩

/-- `cv::subtract(A, B, dst)` for same-sized operands (entrywise difference). -/
def sub (A B : Mat) : Mat := ⟨A.rows, A.cols, fun i j => A.entry i j - B.entry i j⟩

/-- `A.convertTo(A, type, alpha)`: scale every entry by `alpha`. -/
def scale (A : Mat) (alpha : ℚ) : Mat := ⟨A.rows, A.cols, fun i j => A.entry i j * alpha⟩

/-- `cv::transpose` (also the `cv::transpose(const Mat&)` helper of
`helper.hpp`). -/
def transposeM (A : Mat) : Mat := ⟨A.cols, A.rows, fun i j => A.entry j i⟩

/-- Plain matrix product, as computed by `cv::gemm(A, B, 1.0, Mat(), 0.0, dst)`
on conformable operands. -/
def mul (A B : Mat) : Mat :=
  ⟨A.rows, B.cols, fun i j => ∑ k ∈ Finset.range A.cols, A.entry i k * B.entry k j⟩

/-- `A * Bᵗ`, as computed by `cv::gemm(A, B, 1.0, ..., dst, GEMM_2_T)`
on conformable operands. -/
def mulT (A B : Mat) : Mat :=
  ⟨A.rows, B.rows, fun i j => ∑ k ∈ Finset.range A.cols, A.entry i k * B.entry j k⟩

/-- `cv::mulTransposed(A, dst, true)`: `dst = Aᵗ * A`. -/
def tmulSelf (A : Mat) : Mat :=
  ⟨A.cols, A.cols, fun i j => ∑ k ∈ Finset.range A.rows, A.entry k i * A.entry k j⟩

/-- `A.reshape(1, 1)`: flatten to a single row, row-major. -/
def reshapeRow (A : Mat) : Mat :=
  ⟨1, A.rows * A.cols, fun _ t => A.entry (t / A.cols) (t % A.cols)⟩

/-- `A.row(i)` as a fresh 1-row matrix. -/
def rowM (A : Mat) (i : ℕ) : Mat := ⟨1, A.cols, fun _ j => A.entry i j⟩

/-- Dimension-respecting matrix equality: same dimensions and equal
entries inside the bounds. -/
def EqDim (A B : Mat) : Prop :=
  A.rows = B.rows ∧ A.cols = B.cols ∧
    ∀ i < A.rows, ∀ j < A.cols, A.entry i j = B.entry i j

/-- First-row Laplace expansion of the determinant of the leading
`n × n` block of an entry function. -/
def detAux : ℕ → (ℕ → ℕ → ℚ) → ℚ
  | 0, _ => 1
  | n + 1, f =>
      ∑ j ∈ Finset.range (n + 1),
        (-1 : ℚ) ^ j * f 0 j * detAux n (fun r c => f (r + 1) (if c < j then c else c + 1))

/-- `cv::Mat::inv()` (LU decomposition): the inverse of a square matrix,
or the zero matrix when the input is singular (OpenCV's documented LU
behaviour).  Computed here by adjugate over `ℚ`; only its dimensions and
computability matter for the claims below. -/
def inv (A : Mat) : Mat :=
  let n := A.rows
  let d := detAux n A.entry
  if d = 0 then Mat.zeros n n
  else
    ⟨n, n, fun i j =>
      (-1 : ℚ) ^ (i + j) *
        detAux (n - 1)
          (fun r c => A.entry (if r < j then r else r + 1) (if c < i then c else c + 1)) / d⟩

theorem inv_rows (A : Mat) : (Mat.inv A).rows = A.rows := by
  unfold Mat.inv; dsimp only; split <;> rfl

theorem inv_cols (A : Mat) : (Mat.inv A).cols = A.rows := by
  unfold Mat.inv; dsimp only; split <;> rfl

end Mat

/-- `remove_dups` of `helper.hpp`: the input is poured into a
`std::set<int>` (sorted, duplicates collapse on insertion) and the set is
copied out in its iteration order.  `setInsert` is one `std::set`
insertion into the sorted element list. -/
def setInsert (x : ℤ) : List ℤ → List ℤ
  | [] => [x]
  | y :: ys => if x < y then x :: y :: ys else if x = y then y :: ys else y :: setInsert x ys

/-- `remove_dups(src)` of `helper.hpp`: insert every element of `src`
into the set, then read the set off in ascending order. -/
def remove_dups (src : List ℤ) : List ℤ :=
  src.foldl (fun s x => setInsert x s) []

theorem setInsert_mem (x y : ℤ) (l : List ℤ) :
    y ∈ setInsert x l ↔ y = x ∨ y ∈ l := by
  induction l with
  | nil => simp [setInsert]
  | cons h t ih =>
      by_cases hlt : x < h
      · simp [setInsert, hlt]
      · by_cases heq : x = h
        · subst heq
          simp [setInsert, hlt]
        · simp [setInsert, hlt, heq, ih]
          tauto

theorem setInsert_sorted (x : ℤ) (l : List ℤ) (h : l.Pairwise (· < ·)) :
    (setInsert x l).Pairwise (· < ·) := by
  induction l with
  | nil => simp [setInsert]
  | cons a t ih =>
      rcases List.pairwise_cons.mp h with ⟨ha, ht⟩
      by_cases hlt : x < a
      · rw [setInsert, if_pos hlt]
        refine List.pairwise_cons.mpr ⟨?_, h⟩
        intro b hb
        rcases List.mem_cons.mp hb with hb | hb
        · exact hb ▸ hlt
        · exact lt_trans hlt (ha b hb)
      · by_cases heq : x = a
        · rw [setInsert, if_neg hlt, if_pos heq]; exact h
        · rw [setInsert, if_neg hlt, if_neg heq]
          refine List.pairwise_cons.mpr ⟨?_, ih ht⟩
          intro b hb
          rcases (setInsert_mem x b t).mp hb with hb | hb
          · subst hb
            exact lt_of_le_of_ne (not_lt.mp hlt) (Ne.symm heq)
          · exact ha b hb

theorem remove_dups_sorted_mem (l : List ℤ) :
    (remove_dups l).Pairwise (· < ·) ∧ ∀ x : ℤ, x ∈ remove_dups l ↔ x ∈ l := by
  have main : ∀ (l : List ℤ) (acc : List ℤ), acc.Pairwise (· < ·) →
      (l.foldl (fun s x => setInsert x s) acc).Pairwise (· < ·) ∧
        ∀ x : ℤ, x ∈ l.foldl (fun s x => setInsert x s) acc ↔ x ∈ acc ∨ x ∈ l := by
    intro l
    induction l with
    | nil => intro acc hacc; simpa using hacc
    | cons a t ih =>
        intro acc hacc
        have h1 := ih (setInsert a acc) (setInsert_sorted a acc hacc)
        refine ⟨h1.1, ?_⟩
        intro x
        rw [List.foldl_cons, (h1.2 x), setInsert_mem]
        simp
        tauto
  have h := main l [] (by simp)
  exact ⟨h.1, fun x => by simpa using h.2 x⟩

/-- One step of the (stable) insertion sort modelling `cv::sortIdx`:
insert index `i` in front of the first already-placed index `j` with
`lt i j`. -/
def insSorted (lt : ℕ → ℕ → Bool) (i : ℕ) : List ℕ → List ℕ
  | [] => [i]
  | j :: js => if lt i j then i :: j :: js else j :: insSorted lt i js

/-- Model of the external OpenCV primitive `cv::sortIdx` restricted to a
single row: the permutation of `[0, n)` that sorts positions by the
strict comparison `lt`, inserting indices in increasing order (ties keep
index order; OpenCV leaves tie order unspecified). -/
def sortIdxAux (lt : ℕ → ℕ → Bool) (n : ℕ) : List ℕ :=
  (List.range n).foldl (fun acc i => insSorted lt i acc) []

/-- `cv::sortIdx(v, dst, CV_SORT_EVERY_ROW + CV_SORT_ASCENDING/DESCENDING)`
on a 1-row matrix `v`: ascending compares `v₀ᵢ < v₀ⱼ`, descending
compares `v₀ᵢ > v₀ⱼ`. -/
def sortIdxDir (v : Mat) (ascending : Bool) : List ℕ :=
  sortIdxAux
    (fun i j => if ascending then decide (v.entry 0 i < v.entry 0 j)
                else decide (v.entry 0 j < v.entry 0 i))
    v.cols

/-- `cv::argsort` of `helper.hpp`: rejects matrices that are neither a
single row nor a single column with `CV_Error(CV_StsBadArg, ...)`,
otherwise sorts the `reshape(1,1)` flattening with `cv::sortIdx`. -/
def argsort (src : Mat) (ascending : Bool) : Except Err (List ℕ) :=
  if src.rows ≠ 1 ∧ src.cols ≠ 1 then Except.error Err.invalidArgument
  else Except.ok (sortIdxDir src.reshapeRow ascending)

theorem insSorted_length (lt : ℕ → ℕ → Bool) (i : ℕ) (l : List ℕ) :
    (insSorted lt i l).length = l.length + 1 := by
  induction l with
  | nil => rfl
  | cons j js ih =>
      rw [insSorted]
      split
      · simp
      · simp [ih]

theorem insSorted_mem (lt : ℕ → ℕ → Bool) (i x : ℕ) (l : List ℕ) :
    x ∈ insSorted lt i l ↔ x = i ∨ x ∈ l := by
  induction l with
  | nil => simp [insSorted]
  | cons j js ih =>
      rw [insSorted]
      split
      · simp
      · simp [ih]
        tauto

theorem sortIdxAux_length (lt : ℕ → ℕ → Bool) (n : ℕ) :
    (sortIdxAux lt n).length = n := by
  have main : ∀ (L : List ℕ) (acc : List ℕ),
      (L.foldl (fun acc i => insSorted lt i acc) acc).length = acc.length + L.length := by
    intro L
    induction L with
    | nil => simp
    | cons a t ih =>
        intro acc
        rw [List.foldl_cons, ih, insSorted_length]
        simp [List.length_cons]
        omega
  simpa [sortIdxAux] using main (List.range n) []

theorem sortIdxAux_mem (lt : ℕ → ℕ → Bool) (n : ℕ) (x : ℕ)
    (hx : x ∈ sortIdxAux lt n) : x < n := by
  have main : ∀ (L : List ℕ) (acc : List ℕ),
      ∀ y ∈ L.foldl (fun acc i => insSorted lt i acc) acc, y ∈ acc ∨ y ∈ L := by
    intro L
    induction L with
    | nil => intro acc y hy; exact Or.inl (by simpa using hy)
    | cons a t ih =>
        intro acc y hy
        rcases ih (insSorted lt a acc) y hy with h | h
        · rcases (insSorted_mem lt a y acc).mp h with h | h
          · subst h; simp
          · exact Or.inl h
        · simp [h]
  rcases main (List.range n) [] x hx with h | h
  · simp at h
  · exact List.mem_range.mp h

/-- Sortedness of the descending index sort: the inserted comparison is
`w i > w j`, so earlier positions carry larger-or-equal values. -/
theorem insSorted_pairwise (w : ℕ → ℚ) (i : ℕ) (l : List ℕ)
    (h : l.Pairwise (fun a b => w b ≤ w a)) :
    (insSorted (fun a b => decide (w b < w a)) i l).Pairwise (fun a b => w b ≤ w a) := by
  induction l with
  | nil => simp [insSorted]
  | cons j js ih =>
      rcases List.pairwise_cons.mp h with ⟨hj, hjs⟩
      rw [insSorted]
      split
      case isTrue hlt =>
        refine List.pairwise_cons.mpr ⟨?_, h⟩
        intro b hb
        have hij : w j < w i := by simpa using hlt
        rcases List.mem_cons.mp hb with hb | hb
        · exact le_of_lt (hb ▸ hij)
        · exact le_trans (hj b hb) (le_of_lt hij)
      case isFalse hge =>
        refine List.pairwise_cons.mpr ⟨?_, ih hjs⟩
        intro b hb
        have hij : w i ≤ w j := by
          by_contra hcon
          exact hge (by simpa using not_le.mp hcon)
        rcases (insSorted_mem _ i b js).mp hb with hb | hb
        · exact hb ▸ hij
        · exact hj b hb

theorem sortIdxAux_desc_pairwise (w : ℕ → ℚ) (n : ℕ) :
    (sortIdxAux (fun a b => decide (w b < w a)) n).Pairwise (fun a b => w b ≤ w a) := by
  have main : ∀ (L : List ℕ) (acc : List ℕ),
      acc.Pairwise (fun a b => w b ≤ w a) →
      (L.foldl (fun acc i => insSorted (fun a b => decide (w b < w a)) i acc) acc).Pairwise
        (fun a b => w b ≤ w a) := by
    intro L
    induction L with
    | nil => intro acc hacc; simpa using hacc
    | cons a t ih =>
        intro acc hacc
        exact ih _ (insSorted_pairwise w a acc hacc)
  exact main (List.range n) [] (by simp)

/-- `cv::sortMatrixByColumn(src, dst, indices)` of `helper.hpp`, with the
garbage left by `dst.create` made explicit as `init`: `dst` has the
dimensions of `src`; column `idx < indices.length` is copied from source
column `indices[idx]`; the remaining columns keep whatever `create`
produced.  `Mat::col` fails a `CV_Assert` when a requested column index
(on either side) is out of range. -/
def sortMatrixByColumnInit (init : ℕ → ℕ → ℚ) (src : Mat) (indices : List ℕ) :
    Except Err Mat :=
  if indices.length ≤ src.cols ∧ ∀ x ∈ indices, x < src.cols then
    Except.ok ⟨src.rows, src.cols, fun r c =>
      if h : c < indices.length then src.entry r (indices.get ⟨c, h⟩) else init r c⟩
  else Except.error Err.assertFail

/-- `cv::sortMatrixByColumn(src, indices)` (the value-returning overload);
the `dst.create` garbage is fixed to zeros, which never surfaces at the
call sites inside `LDA::compute` (there `indices` covers every column). -/
def sortMatrixByColumn (src : Mat) (indices : List ℕ) : Except Err Mat :=
  sortMatrixByColumnInit (fun _ _ => 0) src indices

/-- `Mat(m, Range::all(), Range(0, nc))`: keep the first `nc` columns.
The ranged `Mat` constructor `CV_Assert`s `0 ≤ nc ∧ nc ≤ m.cols`. -/
def colRange0 (m : Mat) (nc : ℤ) : Except Err Mat :=
  if 0 ≤ nc ∧ nc ≤ (m.cols : ℤ) then
    Except.ok ⟨m.rows, nc.toNat, fun r c => m.entry r c⟩
  else Except.error Err.assertFail

/-- An empty `cv::Mat()` (as passed for the mean by the `LDA` engine). -/
def emptyMat : Mat := ⟨0, 0, fun _ _ => 0⟩

/-- `_dataAsRow ? src : transpose(src)`: the orientation normalization
applied by the `LDA` methods before any processing. -/
def orientRows (dataAsRow : Bool) (src : Mat) : Mat :=
  if dataAsRow then src else src.transposeM

namespace subspace

/-- `subspace::project(W, mean, src)` of `subspace.hpp`: convert `src`,
subtract `mean` (repeated per row) when `mean.total() == src.cols`, then
`gemm(X, W, 1.0, Mat(), 0.0, Y)`.  The `gemm` call `CV_Assert`s the
inner dimensions (`X.cols == W.rows`). -/
def project (W mean src : Mat) : Except Err Mat :=
  let X := src
  let d := X.cols
  let Xc := if mean.total = d then
      Mat.mk X.rows d (fun i j => X.entry i j - mean.reshapeRow.entry 0 j)
    else X
  if Xc.cols = W.rows then Except.ok (Xc.mul W) else Except.error Err.assertFail

/-- `subspace::reconstruct(W, mean, src)` of `subspace.hpp`:
`gemm(Y, W, 1.0, C, beta, X, GEMM_2_T)` where `C = repeat(mean.reshape(1,1), n, 1)`
and `beta = 1.0` exactly when `src.cols == mean.total()` (note: `src.cols`,
the coefficient count, not the output dimensionality).  `gemm` `CV_Assert`s
`src.cols == W.cols` (inner dimensions of `Y * Wᵗ`) and, when the offset
is active, that `C` has the size of the result (`mean.total() == W.rows`). -/
def reconstruct (W mean src : Mat) : Except Err Mat :=
  let d := src.cols
  if src.cols = W.cols then
    if d = mean.total then
      if W.rows = mean.total then
        Except.ok ((src.mulT W).add
          (Mat.mk src.rows W.rows (fun _ j => mean.reshapeRow.entry 0 j)))
      else Except.error Err.assertFail
    else Except.ok (src.mulT W)
  else Except.error Err.assertFail

end subspace

/-- Per-class sample count accumulated by the `numClass[classIdx]++` loop
of `LDA::compute`, viewed per class `c`. -/
def numClass (data : Mat) (mapped : List ℕ) (c : ℕ) : ℕ :=
  ((List.range data.rows).filter (fun i => mapped.getD i 0 = c)).length

/-- The `meanTotal` accumulation loop of `LDA::compute` followed by the
`convertTo(..., 1.0 / N)` scaling. -/
def meanTotal (data : Mat) : Mat :=
  ((List.range data.rows).foldl (fun M i => M.add (data.rowM i))
      (Mat.zeros 1 data.cols)).scale (1 / (data.rows : ℚ))

/-- The per-class portion of the `meanClass[classIdx]` accumulation loop
of `LDA::compute` (rows whose mapped label is `c` are added). -/
def sumClass (data : Mat) (mapped : List ℕ) (c : ℕ) : Mat :=
  (List.range data.rows).foldl
    (fun M i => if mapped.getD i 0 = c then M.add (data.rowM i) else M)
    (Mat.zeros 1 data.cols)

/-- `meanClass[c]` after the `convertTo(..., 1.0 / numClass[c])` scaling. -/
def meanClass (data : Mat) (mapped : List ℕ) (c : ℕ) : Mat :=
  (sumClass data mapped c).scale (1 / (numClass data mapped c : ℚ))

/-- The in-place `subtract(instance, meanClass[classIdx], instance)` loop:
every row is centered by its own class mean. -/
def centerData (data : Mat) (mapped : List ℕ) : Mat :=
  ⟨data.rows, data.cols, fun i j =>
    data.entry i j - (meanClass data mapped (mapped.getD i 0)).entry 0 j⟩

/-- `Sw`: `mulTransposed(data, Sw, true)` over the class-centered data. -/
def withinScatter (data : Mat) (mapped : List ℕ) : Mat :=
  (centerData data mapped).tmulSelf

/-- `Sb`: the loop `for c < C { tmp = meanClass[c] - meanTotal;
mulTransposed(tmp, tmp, true); add(Sb, tmp, Sb) }`. -/
def betweenScatter (data : Mat) (mapped : List ℕ) (C : ℕ) : Mat :=
  (List.range C).foldl
    (fun Sb c => Sb.add (((meanClass data mapped c).sub (meanTotal data)).tmulSelf))
    (Mat.zeros data.cols data.cols)

/-- The state of a `LDA` object: orientation flag, requested/stored
component count (a C++ `int`), and the learned subspace. -/
structure LDA where
  _dataAsRow : Bool
  _num_components : ℤ
  _eigenvectors : Mat
  _eigenvalues : Mat

namespace LDA

/-- Lines 190-201 of `LDA::compute` (`src/unnamed/part_000`): store the
eigenvalues (reshaped to one row) and eigenvectors, rank by descending
eigenvalue with `argsort` / `sortMatrixByColumn`, then truncate both to
the first `_num_components` columns with the ranged `Mat` constructor.
Each step that throws in C++ leaves the object with the mutations made so
far; the second component records the raised error. -/
def rankTrunc (s2 : LDA) (nc : ℤ) : LDA × Option Err :=
  match argsort s2._eigenvalues false with
  | Except.error e => (s2, some e)
  | Except.ok p =>
    match sortMatrixByColumn s2._eigenvalues p with
    | Except.error e => (s2, some e)
    | Except.ok evalS =>
      let s3 := { s2 with _eigenvalues := evalS }
      match sortMatrixByColumn s3._eigenvectors p with
      | Except.error e => (s3, some e)
      | Except.ok evecS =>
        let s4 := { s3 with _eigenvectors := evecS }
        match colRange0 s4._eigenvalues nc with
        | Except.error e => (s4, some e)
        | Except.ok evalT =>
          let s5 := { s4 with _eigenvalues := evalT }
          match colRange0 s5._eigenvectors nc with
          | Except.error e => (s5, some e)
          | Except.ok evecT => ({ s5 with _eigenvectors := evecT }, none)

/-- `LDA::compute(const Mat&, const vector<int>&)` of
`src/unnamed/part_000`, parameterized by the eigensolver `es`
(`EigenvalueDecomposition` lives in `decomposition.hpp`, which is not
part of the sources here; see `EigShape`).  Steps, in source order:
orientation transpose; label normalization via `remove_dups` and the
`label2num` map (`mapped[i]` is the index of `labels[i]` in the sorted
distinct list); the `labels.size() != N` check
(`CV_Error(CV_StsBadArg, ...)`); the `N < D` warning (no effect); the
component-count clamp written back into `_num_components`; means,
class-mean centering, `Sw`, `Sb`; `Swi = Sw.inv()`;
`M = Swi * Sb` (`gemm`); eigendecomposition; ranking and truncation
(`rankTrunc`).  The returned pair is the object state after the call
together with the error raised, if any. -/
def compute (es : Mat → Mat × Mat) (s : LDA) (src : Mat) (labels : List ℤ) :
    LDA × Option Err :=
  let data := orientRows s._dataAsRow src
  let num2label := remove_dups labels
  let mapped := labels.map fun l => num2label.indexOf l
  let N := data.rows
  let C := num2label.length
  if labels.length ≠ N then (s, some Err.invalidArgument)
  else
    let s1 := if s._num_components ≤ 0 ∨ (C : ℤ) - 1 < s._num_components
              then { s with _num_components := (C : ℤ) - 1 } else s
    let Sw := withinScatter data mapped
    let Sb := betweenScatter data mapped C
    let M := (Mat.inv Sw).mul Sb
    let s2 := { s1 with _eigenvalues := (es M).1.reshapeRow, _eigenvectors := (es M).2 }
    rankTrunc s2 s1._num_components

/-- `LDA::project`: delegate to the generic transform with the learned
eigenvectors and an **empty mean**, after the orientation transpose. -/
def project (s : LDA) (src : Mat) : Except Err Mat :=
  subspace.project s._eigenvectors emptyMat (orientRows s._dataAsRow src)

/-- `LDA::reconstruct`: delegate to the generic transform with the
learned eigenvectors and an **empty mean**, after the orientation
transpose. -/
def reconstruct (s : LDA) (src : Mat) : Except Err Mat :=
  subspace.reconstruct s._eigenvectors emptyMat (orientRows s._dataAsRow src)

/-- Accessor `LDA::eigenvectors()`. -/
def eigenvectors (s : LDA) : Mat := s._eigenvectors

/-- Accessor `LDA::eigenvalues()`. -/
def eigenvalues (s : LDA) : Mat := s._eigenvalues

end LDA

/-- Modelled from the spec: `EigenvalueDecomposition` (file
`decomposition.hpp`, not among the sources) is the external
eigen-decomposition primitive — "input: a square matrix; output:
eigenvalues and corresponding eigenvectors" (spec §1, §9).  Its only
property used by the engine's control flow is the output shape: for a
`D × D` input, `D` eigenvalues (as a vector, any orientation) and a
`D × D` eigenvector matrix whose columns correspond to them. -/
def EigShape (es : Mat → Mat × Mat) : Prop :=
  ∀ M : Mat, M.rows = M.cols →
    (es M).1.rows * (es M).1.cols = M.rows ∧
      (es M).2.rows = M.rows ∧ (es M).2.cols = M.rows

/-- A stub eigensolver with the documented output shape (all zeros);
used to instantiate theorems whose hypotheses only need `EigShape`. -/
def esStub : Mat → Mat × Mat :=
  fun M => (⟨1, M.rows, fun _ _ => 0⟩, ⟨M.rows, M.rows, fun _ _ => 0⟩)

theorem esStub_shape : EigShape esStub := by
  intro M _
  refine ⟨?_, rfl, rfl⟩
  simp [esStub]

theorem foldl_rows_inv (step : Mat → ℕ → Mat) (h : ∀ M i, (step M i).rows = M.rows)
    (L : List ℕ) (M0 : Mat) : (L.foldl step M0).rows = M0.rows := by
  induction L generalizing M0 with
  | nil => rfl
  | cons a t ih => rw [List.foldl_cons, ih, h]

theorem foldl_cols_inv (step : Mat → ℕ → Mat) (h : ∀ M i, (step M i).cols = M.cols)
    (L : List ℕ) (M0 : Mat) : (L.foldl step M0).cols = M0.cols := by
  induction L generalizing M0 with
  | nil => rfl
  | cons a t ih => rw [List.foldl_cons, ih, h]

theorem foldl_add_entry (g : ℕ → Mat) (L : List ℕ) (M0 : Mat) (i j : ℕ) :
    (L.foldl (fun M c => M.add (g c)) M0).entry i j
      = M0.entry i j + (L.map fun c => (g c).entry i j).sum := by
  induction L generalizing M0 with
  | nil => simp
  | cons a t ih =>
      rw [List.foldl_cons, ih]
      show (M0.entry i j + (g a).entry i j) + _ = _
      rw [List.map_cons, List.sum_cons]
      ring

theorem list_range_map_sum (f : ℕ → ℚ) (n : ℕ) :
    ((List.range n).map f).sum = ∑ c ∈ Finset.range n, f c := by
  induction n with
  | zero => simp
  | succ n ih =>
      rw [List.range_succ, List.map_append, List.sum_append, ih, Finset.sum_range_succ]
      simp

theorem sumClass_rows (data : Mat) (mapped : List ℕ) (c : ℕ) :
    (sumClass data mapped c).rows = 1 := by
  rw [sumClass]
  exact foldl_rows_inv _ (fun M i => by split <;> rfl) _ _

theorem meanClass_rows (data : Mat) (mapped : List ℕ) (c : ℕ) :
    (meanClass data mapped c).rows = 1 :=
  sumClass_rows data mapped c

theorem betweenScatter_rows (data : Mat) (mapped : List ℕ) (C : ℕ) :
    (betweenScatter data mapped C).rows = data.cols := by
  rw [betweenScatter]
  exact foldl_rows_inv
    (fun Sb c => Sb.add (((meanClass data mapped c).sub (meanTotal data)).tmulSelf))
    (fun _ _ => rfl) (List.range C) (Mat.zeros data.cols data.cols)

theorem betweenScatter_cols (data : Mat) (mapped : List ℕ) (C : ℕ) :
    (betweenScatter data mapped C).cols = data.cols := by
  rw [betweenScatter]
  exact foldl_cols_inv
    (fun Sb c => Sb.add (((meanClass data mapped c).sub (meanTotal data)).tmulSelf))
    (fun _ _ => rfl) (List.range C) (Mat.zeros data.cols data.cols)

/-- C5: the between-class scatter built by `LDA::compute` is the plain,
unweighted sum over the `C` classes of the outer product of
`meanClass[c] − meanTotal` with itself — entry `(i, j)` is
`Σ_c (mean_c − mean_total)_i · (mean_c − mean_total)_j`, with no factor
of the class sample count `n_c`, so every class contributes one term
regardless of its size. -/
theorem C5_between_scatter_unweighted (data : Mat) (mapped : List ℕ) (C : ℕ) :
    Mat.EqDim (betweenScatter data mapped C)
      ⟨data.cols, data.cols, fun i j =>
        ∑ c ∈ Finset.range C,
          ((meanClass data mapped c).entry 0 i - (meanTotal data).entry 0 i) *
            ((meanClass data mapped c).entry 0 j - (meanTotal data).entry 0 j)⟩ := by
  refine ⟨betweenScatter_rows data mapped C, betweenScatter_cols data mapped C, ?_⟩
  intro i _ j _
  have hg : ∀ c : ℕ,
      (((meanClass data mapped c).sub (meanTotal data)).tmulSelf).entry i j
        = ((meanClass data mapped c).entry 0 i - (meanTotal data).entry 0 i) *
            ((meanClass data mapped c).entry 0 j - (meanTotal data).entry 0 j) := by
    intro c
    show (∑ k ∈ Finset.range ((meanClass data mapped c).sub (meanTotal data)).rows,
        ((meanClass data mapped c).sub (meanTotal data)).entry k i *
          ((meanClass data mapped c).sub (meanTotal data)).entry k j) = _
    have hrows : ((meanClass data mapped c).sub (meanTotal data)).rows = 1 :=
      meanClass_rows data mapped c
    rw [hrows, Finset.sum_range_one]
    rfl
  rw [betweenScatter, foldl_add_entry]
  simp only [hg]
  rw [list_range_map_sum]
  show 0 + _ = _
  rw [zero_add]

theorem argsort_row (v : Mat) (hv : v.rows = 1) (b : Bool) :
    argsort v b = Except.ok (sortIdxDir v.reshapeRow b) := by
  rw [argsort, if_neg]
  simp [hv]

theorem sortMatrixByColumn_ok (src : Mat) (indices : List ℕ)
    (h1 : indices.length ≤ src.cols) (h2 : ∀ x ∈ indices, x < src.cols) :
    sortMatrixByColumn src indices = Except.ok ⟨src.rows, src.cols, fun r c =>
      if h : c < indices.length then src.entry r (indices.get ⟨c, h⟩) else 0⟩ := by
  rw [sortMatrixByColumn, sortMatrixByColumnInit, if_pos ⟨h1, h2⟩]

theorem colRange0_ok (m : Mat) (nc : ℤ) (h0 : 0 ≤ nc) (hc : nc ≤ (m.cols : ℤ)) :
    colRange0 m nc = Except.ok ⟨m.rows, nc.toNat, fun r c => m.entry r c⟩ := by
  rw [colRange0, if_pos ⟨h0, hc⟩]

theorem sortIdxDir_length (v : Mat) (b : Bool) : (sortIdxDir v b).length = v.cols := by
  rw [sortIdxDir, sortIdxAux_length]

theorem sortIdxDir_mem (v : Mat) (b : Bool) (x : ℕ) (hx : x ∈ sortIdxDir v b) :
    x < v.cols := sortIdxAux_mem _ _ x hx

theorem rankTrunc_ok (s2 : LDA) (nc : ℤ)
    (hr : s2._eigenvalues.rows = 1)
    (hvc : s2._eigenvectors.cols = s2._eigenvalues.cols)
    (h0 : 0 ≤ nc) (hE : nc ≤ (s2._eigenvalues.cols : ℤ)) :
    (LDA.rankTrunc s2 nc).2 = none ∧
    (LDA.rankTrunc s2 nc).1._dataAsRow = s2._dataAsRow ∧
    (LDA.rankTrunc s2 nc).1._num_components = s2._num_components ∧
    (LDA.rankTrunc s2 nc).1._eigenvectors.rows = s2._eigenvectors.rows ∧
    (LDA.rankTrunc s2 nc).1._eigenvectors.cols = nc.toNat ∧
    (LDA.rankTrunc s2 nc).1._eigenvalues.rows = 1 ∧
    (LDA.rankTrunc s2 nc).1._eigenvalues.cols = nc.toNat := by
  have hlen : (sortIdxDir s2._eigenvalues.reshapeRow false).length = s2._eigenvalues.cols := by
    rw [sortIdxDir_length]
    show s2._eigenvalues.rows * s2._eigenvalues.cols = s2._eigenvalues.cols
    rw [hr, one_mul]
  have hmem : ∀ x ∈ sortIdxDir s2._eigenvalues.reshapeRow false, x < s2._eigenvalues.cols := by
    intro x hx
    have h := sortIdxDir_mem _ _ x hx
    have hc : s2._eigenvalues.reshapeRow.cols = s2._eigenvalues.cols := by
      show s2._eigenvalues.rows * s2._eigenvalues.cols = s2._eigenvalues.cols
      rw [hr, one_mul]
    rwa [hc] at h
  have hmem2 : ∀ x ∈ sortIdxDir s2._eigenvalues.reshapeRow false, x < s2._eigenvectors.cols := by
    intro x hx
    rw [hvc]
    exact hmem x hx
  have e1 : argsort s2._eigenvalues false
      = Except.ok (sortIdxDir s2._eigenvalues.reshapeRow false) := argsort_row _ hr false
  have e2 := sortMatrixByColumn_ok s2._eigenvalues
    (sortIdxDir s2._eigenvalues.reshapeRow false) (le_of_eq hlen) hmem
  have e3 := sortMatrixByColumn_ok s2._eigenvectors
    (sortIdxDir s2._eigenvalues.reshapeRow false) (by rw [hvc]; exact le_of_eq hlen) hmem2
  have e4 := colRange0_ok
    ⟨s2._eigenvalues.rows, s2._eigenvalues.cols, fun r c =>
      if h : c < (sortIdxDir s2._eigenvalues.reshapeRow false).length then
        s2._eigenvalues.entry r ((sortIdxDir s2._eigenvalues.reshapeRow false).get ⟨c, h⟩)
      else 0⟩ nc h0 hE
  have e5 := colRange0_ok
    ⟨s2._eigenvectors.rows, s2._eigenvectors.cols, fun r c =>
      if h : c < (sortIdxDir s2._eigenvalues.reshapeRow false).length then
        s2._eigenvectors.entry r ((sortIdxDir s2._eigenvalues.reshapeRow false).get ⟨c, h⟩)
      else 0⟩ nc h0 (by rw [hvc]; exact hE)
  simp only [LDA.rankTrunc, e1, e2, e3, e4, e5]
  simp [hr]

/-- The component-count clamp of `LDA::compute` (lines 143-144):
`if (_num_components <= 0 || _num_components > C-1) _num_components = C-1`. -/
def clampComponents (r : ℤ) (C : ℕ) : ℤ :=
  if r ≤ 0 ∨ (C : ℤ) - 1 < r then (C : ℤ) - 1 else r

theorem compute_success (es : Mat → Mat × Mat) (s : LDA) (src : Mat) (labels : List ℤ)
    (hes : EigShape es)
    (hlen : labels.length = (orientRows s._dataAsRow src).rows)
    (h0 : 0 < clampComponents s._num_components (remove_dups labels).length)
    (hD : clampComponents s._num_components (remove_dups labels).length
            ≤ ((orientRows s._dataAsRow src).cols : ℤ)) :
    (LDA.compute es s src labels).2 = none ∧
    (LDA.compute es s src labels).1._dataAsRow = s._dataAsRow ∧
    (LDA.compute es s src labels).1._num_components
        = clampComponents s._num_components (remove_dups labels).length ∧
    (LDA.compute es s src labels).1._eigenvectors.cols
        = (clampComponents s._num_components (remove_dups labels).length).toNat ∧
    (LDA.compute es s src labels).1._eigenvalues.cols
        = (clampComponents s._num_components (remove_dups labels).length).toNat ∧
    (LDA.compute es s src labels).1._eigenvalues.rows = 1 := by
  have hlen' : ¬ (labels.length ≠ (orientRows s._dataAsRow src).rows) := by
    simp [hlen]
  set data := orientRows s._dataAsRow src with hdata
  set mapped := labels.map (fun l => (remove_dups labels).indexOf l) with hmapped
  set C := (remove_dups labels).length with hC
  set s1 := if s._num_components ≤ 0 ∨ (C : ℤ) - 1 < s._num_components
            then { s with _num_components := (C : ℤ) - 1 } else s with hs1
  set M := (Mat.inv (withinScatter data mapped)).mul (betweenScatter data mapped C) with hM
  set s2 : LDA := { s1 with
    _eigenvalues := (es M).1.reshapeRow, _eigenvectors := (es M).2 } with hs2
  have hcompute : LDA.compute es s src labels = LDA.rankTrunc s2 s1._num_components := by
    rw [LDA.compute, if_neg hlen']
  have hs1n : s1._num_components = clampComponents s._num_components C := by
    rw [hs1, clampComponents]
    split <;> rfl
  have hs1row : s1._dataAsRow = s._dataAsRow := by
    rw [hs1]; split <;> rfl
  have hMsq : M.rows = M.cols := by
    rw [hM]
    show (Mat.inv (withinScatter data mapped)).rows = (betweenScatter data mapped C).cols
    rw [Mat.inv_rows, betweenScatter_cols]
    rfl
  have hMrows : M.rows = data.cols := by
    rw [hM]
    show (Mat.inv (withinScatter data mapped)).rows = data.cols
    rw [Mat.inv_rows]
    rfl
  obtain ⟨hes1, hes2, hes3⟩ := hes M hMsq
  have hr : s2._eigenvalues.rows = 1 := rfl
  have hEcols : s2._eigenvalues.cols = data.cols := by
    show (es M).1.rows * (es M).1.cols = data.cols
    rw [hes1, hMrows]
  have hvc : s2._eigenvectors.cols = s2._eigenvalues.cols := by
    show (es M).2.cols = (es M).1.rows * (es M).1.cols
    rw [hes3, hes1]
  have hres := rankTrunc_ok s2 s1._num_components hr hvc
    (by rw [hs1n]; exact le_of_lt h0)
    (by rw [hs1n, hEcols]; exact hD)
  rw [hcompute, ← hs1n]
  exact ⟨hres.1, by rw [hres.2.1]; exact hs1row, hres.2.2.1,
    hres.2.2.2.2.1, hres.2.2.2.2.2.2, hres.2.2.2.2.2.1⟩

/-- C7: whenever the label count differs from the row count of the
orientation-normalized sample matrix, `LDA::compute` raises
`CV_Error(CV_StsBadArg, ...)` (InvalidArgument) and the object — in
particular the learned subspace `_eigenvectors` / `_eigenvalues` — is
returned unchanged (the check precedes every mutation). -/
theorem C7_label_mismatch_error (es : Mat → Mat × Mat) (s : LDA) (src : Mat)
    (labels : List ℤ)
    (h : labels.length ≠ (orientRows s._dataAsRow src).rows) :
    LDA.compute es s src labels = (s, some Err.invalidArgument) := by
  simp only [LDA.compute]
  rw [if_pos h]

theorem C7_label_mismatch_error_witness :
    LDA.compute esStub ⟨true, 0, emptyMat, emptyMat⟩ ⟨2, 1, fun _ _ => 0⟩ [1, 2, 3]
      = (⟨true, 0, emptyMat, emptyMat⟩, some Err.invalidArgument) :=
  C7_label_mismatch_error esStub ⟨true, 0, emptyMat, emptyMat⟩ ⟨2, 1, fun _ _ => 0⟩
    [1, 2, 3] (by decide)

/-- C2 (counterexample): a valid input — single-channel samples, three
distinct labels, label count equal to the sample count, an eigensolver
of the documented shape — on which `compute` raises instead of
succeeding: with one feature dimension (`D = 1`) and `C = 3` classes the
truncation `Mat(_, Range::all(), Range(0, C-1)) = Range(0, 2)` exceeds
the single available column, so the claimed "compute succeeds for every
valid input" is false. -/
theorem C2_counterexample :
    EigShape esStub ∧
    2 ≤ (remove_dups [0, 1, 2]).length ∧
    ([0, 1, 2] : List ℤ).length
      = (orientRows true ⟨3, 1, fun i _ => (i : ℚ) + 1⟩).rows ∧
    (LDA.compute esStub ⟨true, 0, emptyMat, emptyMat⟩
        ⟨3, 1, fun i _ => (i : ℚ) + 1⟩ [0, 1, 2]).2 = some Err.assertFail :=
  ⟨esStub_shape, by decide, by decide, by decide⟩

/-- C2 (amended): for every valid input (`C ≥ 2` distinct labels,
`len(labels) == N`, eigensolver of the documented shape) **provided
additionally** that the effective component count — `C−1` when the
requested count is `≤ 0`, otherwise `min(requested, C−1)` — does not
exceed the feature dimension `D`, `compute` succeeds and
`eigenvectors()` has exactly that many columns afterwards; in
particular a requested count `> C−1` is silently clamped to `C−1` with
no error.  The proviso is forced by `C2_counterexample`. -/
theorem C2_compute_components (es : Mat → Mat × Mat) (s : LDA) (src : Mat)
    (labels : List ℤ)
    (hes : EigShape es)
    (hlen : labels.length = (orientRows s._dataAsRow src).rows)
    (hC : 2 ≤ (remove_dups labels).length)
    (hD : (if s._num_components ≤ 0 then ((remove_dups labels).length : ℤ) - 1
           else min s._num_components (((remove_dups labels).length : ℤ) - 1))
          ≤ ((orientRows s._dataAsRow src).cols : ℤ)) :
    (LDA.compute es s src labels).2 = none ∧
    (LDA.eigenvectors (LDA.compute es s src labels).1).cols
      = (if s._num_components ≤ 0 then ((remove_dups labels).length : ℤ) - 1
         else min s._num_components (((remove_dups labels).length : ℤ) - 1)).toNat := by
  have hmin : clampComponents s._num_components (remove_dups labels).length
      = (if s._num_components ≤ 0 then ((remove_dups labels).length : ℤ) - 1
         else min s._num_components (((remove_dups labels).length : ℤ) - 1)) := by
    rw [clampComponents]
    by_cases h1 : s._num_components ≤ 0
    · rw [if_pos (Or.inl h1), if_pos h1]
    · rw [if_neg h1]
      by_cases h2 : ((remove_dups labels).length : ℤ) - 1 < s._num_components
      · rw [if_pos (Or.inr h2), min_eq_right (le_of_lt h2)]
      · rw [if_neg (by tauto), min_eq_left (not_lt.mp h2)]
  have hC' : (2 : ℤ) ≤ ((remove_dups labels).length : ℤ) := by exact_mod_cast hC
  have h0 : 0 < clampComponents s._num_components (remove_dups labels).length := by
    rw [clampComponents]
    by_cases h1 : s._num_components ≤ 0
    · rw [if_pos (Or.inl h1)]; omega
    · by_cases h2 : ((remove_dups labels).length : ℤ) - 1 < s._num_components
      · rw [if_pos (Or.inr h2)]; omega
      · rw [if_neg (by tauto)]; omega
  have hres := compute_success es s src labels hes hlen h0 (by rw [hmin]; exact hD)
  exact ⟨hres.1, by rw [LDA.eigenvectors, hres.2.2.2.1, hmin]⟩

theorem C2_compute_components_witness :
    (LDA.compute esStub ⟨true, 0, emptyMat, emptyMat⟩
        ⟨2, 1, fun i _ => (i : ℚ)⟩ [5, 9]).2 = none ∧
    (LDA.eigenvectors (LDA.compute esStub ⟨true, 0, emptyMat, emptyMat⟩
        ⟨2, 1, fun i _ => (i : ℚ)⟩ [5, 9]).1).cols
      = (if (0 : ℤ) ≤ 0 then ((remove_dups [5, 9]).length : ℤ) - 1
         else min 0 (((remove_dups [5, 9]).length : ℤ) - 1)).toNat :=
  C2_compute_components esStub ⟨true, 0, emptyMat, emptyMat⟩
    ⟨2, 1, fun i _ => (i : ℚ)⟩ [5, 9] esStub_shape (by decide) (by decide) (by decide)

/-- C3: `LDA::compute` writes the clamped effective component count back
into the member `_num_components` (the clamp at lines 143-144 assigns the
field).  Consequently, after a first successful `compute` on data with
`C₁` classes starting from an auto (`≤ 0`) request, the stored count is
`C₁ − 1`, and a second `compute` on new data with `C₂` classes reuses
that stored count whenever it is positive and at most `C₂ − 1` — the new
subspace has `C₁ − 1` columns instead of the re-derived `C₂ − 1`. -/
theorem C3_num_components_persist (es : Mat → Mat × Mat) (s : LDA)
    (src1 : Mat) (labels1 : List ℤ) (src2 : Mat) (labels2 : List ℤ)
    (hes : EigShape es)
    (hnc0 : s._num_components ≤ 0)
    (hlen1 : labels1.length = (orientRows s._dataAsRow src1).rows)
    (hC1 : 2 ≤ (remove_dups labels1).length)
    (hD1 : ((remove_dups labels1).length : ℤ) - 1
            ≤ ((orientRows s._dataAsRow src1).cols : ℤ))
    (hlen2 : labels2.length = (orientRows s._dataAsRow src2).rows)
    (hle : ((remove_dups labels1).length : ℤ) - 1
            ≤ ((remove_dups labels2).length : ℤ) - 1)
    (hD2 : ((remove_dups labels1).length : ℤ) - 1
            ≤ ((orientRows s._dataAsRow src2).cols : ℤ)) :
    (LDA.compute es s src1 labels1).1._num_components
        = ((remove_dups labels1).length : ℤ) - 1 ∧
    (LDA.compute es (LDA.compute es s src1 labels1).1 src2 labels2).2 = none ∧
    (LDA.compute es (LDA.compute es s src1 labels1).1 src2 labels2).1._num_components
        = ((remove_dups labels1).length : ℤ) - 1 ∧
    (LDA.eigenvectors
        (LDA.compute es (LDA.compute es s src1 labels1).1 src2 labels2).1).cols
        = (((remove_dups labels1).length : ℤ) - 1).toNat := by
  have hC1' : (2 : ℤ) ≤ ((remove_dups labels1).length : ℤ) := by exact_mod_cast hC1
  have hclamp1 : clampComponents s._num_components (remove_dups labels1).length
      = ((remove_dups labels1).length : ℤ) - 1 := by
    rw [clampComponents, if_pos (Or.inl hnc0)]
  have h01 : 0 < clampComponents s._num_components (remove_dups labels1).length := by
    rw [hclamp1]; omega
  have hres1 := compute_success es s src1 labels1 hes hlen1 h01 (by rw [hclamp1]; exact hD1)
  set s1 := (LDA.compute es s src1 labels1).1 with hs1def
  have hn1 : s1._num_components = ((remove_dups labels1).length : ℤ) - 1 :=
    hres1.2.2.1.trans hclamp1
  have hrow1 : s1._dataAsRow = s._dataAsRow := hres1.2.1
  have hclamp2 : clampComponents s1._num_components (remove_dups labels2).length
      = ((remove_dups labels1).length : ℤ) - 1 := by
    rw [clampComponents, hn1, if_neg (by omega)]
  have h02 : 0 < clampComponents s1._num_components (remove_dups labels2).length := by
    rw [hclamp2]; omega
  have hres2 := compute_success es s1 src2 labels2 hes
    (by rw [hrow1]; exact hlen2) h02 (by rw [hclamp2, hrow1]; exact hD2)
  refine ⟨hn1, hres2.1, hres2.2.2.1.trans hclamp2, ?_⟩
  rw [LDA.eigenvectors, hres2.2.2.2.1, hclamp2]

theorem C3_num_components_persist_witness :
    (LDA.compute esStub ⟨true, 0, emptyMat, emptyMat⟩
        ⟨3, 2, fun i j => (i : ℚ) + (j : ℚ) * 2⟩ [0, 1, 2]).1._num_components
      = ((remove_dups [0, 1, 2]).length : ℤ) - 1 ∧
    (LDA.compute esStub (LDA.compute esStub ⟨true, 0, emptyMat, emptyMat⟩
        ⟨3, 2, fun i j => (i : ℚ) + (j : ℚ) * 2⟩ [0, 1, 2]).1
        ⟨4, 2, fun i j => (i : ℚ) * 3 + (j : ℚ)⟩ [0, 1, 2, 3]).2 = none ∧
    (LDA.compute esStub (LDA.compute esStub ⟨true, 0, emptyMat, emptyMat⟩
        ⟨3, 2, fun i j => (i : ℚ) + (j : ℚ) * 2⟩ [0, 1, 2]).1
        ⟨4, 2, fun i j => (i : ℚ) * 3 + (j : ℚ)⟩ [0, 1, 2, 3]).1._num_components
      = ((remove_dups [0, 1, 2]).length : ℤ) - 1 ∧
    (LDA.eigenvectors (LDA.compute esStub (LDA.compute esStub ⟨true, 0, emptyMat, emptyMat⟩
        ⟨3, 2, fun i j => (i : ℚ) + (j : ℚ) * 2⟩ [0, 1, 2]).1
        ⟨4, 2, fun i j => (i : ℚ) * 3 + (j : ℚ)⟩ [0, 1, 2, 3]).1).cols
      = (((remove_dups [0, 1, 2]).length : ℤ) - 1).toNat := by
  have h2 : ([0, 1, 2, 3] : List ℤ).length
      = (orientRows (⟨true, 0, emptyMat, emptyMat⟩ : LDA)._dataAsRow
          ⟨4, 2, fun i j => (i : ℚ) * 3 + (j : ℚ)⟩).rows := by decide
  exact C3_num_components_persist esStub ⟨true, 0, emptyMat, emptyMat⟩
    ⟨3, 2, fun i j => (i : ℚ) + (j : ℚ) * 2⟩ [0, 1, 2]
    ⟨4, 2, fun i j => (i : ℚ) * 3 + (j : ℚ)⟩ [0, 1, 2, 3]
    esStub_shape (by decide) (by decide) (by decide) (by decide) h2 (by decide) (by decide)

theorem sortedSel (v : Mat) (p : List ℕ) (a b : ℕ)
    (hap : a < p.length) (hbp : b < p.length)
    (hord : v.entry 0 (p.get ⟨b, hbp⟩) ≤ v.entry 0 (p.get ⟨a, hap⟩)) :
    (if hh : b < p.length then v.entry 0 (p.get ⟨b, hh⟩) else 0)
      ≤ (if hh : a < p.length then v.entry 0 (p.get ⟨a, hh⟩) else 0) := by
  rw [dif_pos hbp, dif_pos hap]
  exact hord

theorem rankTrunc_sorted (s2 : LDA) (nc : ℤ) (s' : LDA)
    (hr : s2._eigenvalues.rows = 1)
    (h : LDA.rankTrunc s2 nc = (s', none)) :
    ∀ a b : ℕ, a ≤ b → b < s'._eigenvalues.cols →
      s'._eigenvalues.entry 0 b ≤ s'._eigenvalues.entry 0 a := by
  have hlen : (sortIdxDir s2._eigenvalues.reshapeRow false).length = s2._eigenvalues.cols := by
    rw [sortIdxDir_length]
    show s2._eigenvalues.rows * s2._eigenvalues.cols = s2._eigenvalues.cols
    rw [hr, one_mul]
  have hmem : ∀ x ∈ sortIdxDir s2._eigenvalues.reshapeRow false, x < s2._eigenvalues.cols := by
    intro x hx
    have hx2 := sortIdxDir_mem _ _ x hx
    have hc : s2._eigenvalues.reshapeRow.cols = s2._eigenvalues.cols := by
      show s2._eigenvalues.rows * s2._eigenvalues.cols = s2._eigenvalues.cols
      rw [hr, one_mul]
    rwa [hc] at hx2
  have hwv : ∀ x, x < s2._eigenvalues.cols →
      s2._eigenvalues.reshapeRow.entry 0 x = s2._eigenvalues.entry 0 x := by
    intro x hx
    show s2._eigenvalues.entry (x / s2._eigenvalues.cols) (x % s2._eigenvalues.cols) = _
    rw [Nat.div_eq_of_lt hx, Nat.mod_eq_of_lt hx]
  have hpair : (sortIdxDir s2._eigenvalues.reshapeRow false).Pairwise
      (fun a b => s2._eigenvalues.reshapeRow.entry 0 b
        ≤ s2._eigenvalues.reshapeRow.entry 0 a) := by
    have hdef : sortIdxDir s2._eigenvalues.reshapeRow false
        = sortIdxAux (fun a b =>
            decide (s2._eigenvalues.reshapeRow.entry 0 b
              < s2._eigenvalues.reshapeRow.entry 0 a))
          s2._eigenvalues.reshapeRow.cols := rfl
    rw [hdef]
    exact sortIdxAux_desc_pairwise _ _
  have e1 := argsort_row s2._eigenvalues hr false
  have e2 := sortMatrixByColumn_ok s2._eigenvalues
    (sortIdxDir s2._eigenvalues.reshapeRow false) (le_of_eq hlen) hmem
  simp only [LDA.rankTrunc, e1, e2] at h
  split at h
  · simp at h
  · rename_i evecS heq3
    split at h
    · simp at h
    · rename_i evalT heq4
      split at h
      · simp at h
      · rename_i evecT heq5
        rw [colRange0] at heq4
        split at heq4
        · rename_i hcond4
          injection heq4 with heq4
          injection h with h1 h2
          subst h1
          subst heq4
          intro a b hab hb
          have hb' : b < nc.toNat := hb
          have h2le : nc ≤ (s2._eigenvalues.cols : ℤ) := hcond4.2
          have hcols : nc.toNat ≤ s2._eigenvalues.cols := by omega
          have hbp : b < (sortIdxDir s2._eigenvalues.reshapeRow false).length := by
            rw [hlen]; omega
          have hap : a < (sortIdxDir s2._eigenvalues.reshapeRow false).length := by
            rw [hlen]; omega
          refine sortedSel s2._eigenvalues
            (sortIdxDir s2._eigenvalues.reshapeRow false) a b hap hbp ?_
          rcases Nat.lt_or_ge a b with hlt | hge
          · have hRab := (List.pairwise_iff_get.mp hpair) ⟨a, hap⟩ ⟨b, hbp⟩ hlt
            have hga := List.get_mem (sortIdxDir s2._eigenvalues.reshapeRow false) a hap
            have hgb := List.get_mem (sortIdxDir s2._eigenvalues.reshapeRow false) b hbp
            rw [hwv _ (hmem _ hga), hwv _ (hmem _ hgb)] at hRab
            exact hRab
          · have hab2 : a = b := le_antisymm hab hge
            subst hab2
            exact le_refl _
        · exact Except.noConfusion heq4

/-- C6: after every successful `compute` call (any eigensolver, any
input, conditioned only on no error being raised) the entries of the
row vector returned by `eigenvalues()` are in non-increasing order —
positions `a ≤ b` satisfy `entry b ≤ entry a`.  The accessors
`eigenvalues()` / `eigenvectors()` read the stored state without
modifying it, and `project` / `reconstruct` are functions of the state
that return fresh matrices, so the ordering persists until the next
`compute` replaces the subspace. -/
theorem C6_eigenvalues_sorted (es : Mat → Mat × Mat) (s : LDA) (src : Mat)
    (labels : List ℤ) (s' : LDA)
    (h : LDA.compute es s src labels = (s', none)) :
    (∀ a b : ℕ, a ≤ b → b < (LDA.eigenvalues s').cols →
        (LDA.eigenvalues s').entry 0 b ≤ (LDA.eigenvalues s').entry 0 a) ∧
    LDA.eigenvalues s' = s'._eigenvalues ∧
    LDA.eigenvectors s' = s'._eigenvectors := by
  refine ⟨?_, rfl, rfl⟩
  rw [LDA.compute] at h
  split at h
  · simp at h
  · exact rankTrunc_sorted _ _ s' rfl h

theorem C6_eigenvalues_sorted_witness :
    (LDA.eigenvalues (LDA.compute esStub ⟨true, 0, emptyMat, emptyMat⟩
        ⟨3, 2, fun i j => (i : ℚ) + (j : ℚ) * 2⟩ [0, 1, 2]).1).entry 0 1
      ≤ (LDA.eigenvalues (LDA.compute esStub ⟨true, 0, emptyMat, emptyMat⟩
        ⟨3, 2, fun i j => (i : ℚ) + (j : ℚ) * 2⟩ [0, 1, 2]).1).entry 0 0 := by
  have h2 : (LDA.compute esStub ⟨true, 0, emptyMat, emptyMat⟩
      ⟨3, 2, fun i j => (i : ℚ) + (j : ℚ) * 2⟩ [0, 1, 2]).2 = none := by decide
  have h : LDA.compute esStub ⟨true, 0, emptyMat, emptyMat⟩
      ⟨3, 2, fun i j => (i : ℚ) + (j : ℚ) * 2⟩ [0, 1, 2]
      = ((LDA.compute esStub ⟨true, 0, emptyMat, emptyMat⟩
          ⟨3, 2, fun i j => (i : ℚ) + (j : ℚ) * 2⟩ [0, 1, 2]).1, none) := by
    rw [← h2]
  exact (C6_eigenvalues_sorted esStub ⟨true, 0, emptyMat, emptyMat⟩
    ⟨3, 2, fun i j => (i : ℚ) + (j : ℚ) * 2⟩ [0, 1, 2] _ h).1 0 1 (by decide) (by decide)

/-- C8: `cv::argsort` on the 1×4 row `[1.0, 0.0, 3.0, -1.0]` returns the
index permutation `[3, 1, 0, 2]` ascending and `[2, 0, 1, 3]`
descending; and on every matrix that is neither a single row nor a
single column it raises `CV_Error(CV_StsBadArg, ...)` (for either
direction flag). -/
theorem C8_argsort_spec :
    argsort ⟨1, 4, fun _ j =>
        if j = 0 then 1 else if j = 1 then 0 else if j = 2 then 3 else -1⟩ true
      = Except.ok [3, 1, 0, 2] ∧
    argsort ⟨1, 4, fun _ j =>
        if j = 0 then 1 else if j = 1 then 0 else if j = 2 then 3 else -1⟩ false
      = Except.ok [2, 0, 1, 3] ∧
    ∀ (m : Mat) (b : Bool), m.rows ≠ 1 → m.cols ≠ 1 →
      argsort m b = Except.error Err.invalidArgument := by
  refine ⟨by decide, by decide, ?_⟩
  intro m b h1 h2
  rw [argsort, if_pos ⟨h1, h2⟩]

theorem C8_argsort_spec_witness :
    argsort ⟨2, 2, fun _ _ => 0⟩ true = Except.error Err.invalidArgument :=
  C8_argsort_spec.2.2 ⟨2, 2, fun _ _ => 0⟩ true (by decide) (by decide)

/-- C9: `remove_dups` returns the distinct values of its input sorted
strictly ascending (pairwise `<`, hence duplicate-free), containing
exactly the values of the input; on `[2, 1, 2, 3, 1]` it returns
`[1, 2, 3]`. -/
theorem C9_remove_dups_spec :
    (∀ l : List ℤ, (remove_dups l).Pairwise (· < ·)
        ∧ ∀ x : ℤ, x ∈ remove_dups l ↔ x ∈ l) ∧
    remove_dups [2, 1, 2, 3, 1] = [1, 2, 3] :=
  ⟨remove_dups_sorted_mem, by decide⟩

/-- C10 (counterexample): on the 1×1 source with index list `[1]` the
claim predicts a returned 1×1 matrix whose column 0 is source column 1;
the code instead fails the `CV_Assert` inside `Mat::col` (index out of
range) and returns no matrix at all, so the claim's unrestricted "for
every index list" is false. -/
theorem C10_counterexample :
    sortMatrixByColumn ⟨1, 1, fun _ _ => 0⟩ [1] = Except.error Err.assertFail ∧
    ¬ ∃ M : Mat, sortMatrixByColumn ⟨1, 1, fun _ _ => 0⟩ [1] = Except.ok M := by
  have h1 : sortMatrixByColumn ⟨1, 1, fun _ _ => 0⟩ [1]
      = Except.error Err.assertFail := rfl
  refine ⟨h1, ?_⟩
  rintro ⟨M, hM⟩
  rw [h1] at hM
  exact Except.noConfusion hM

/-- C10 (amended): for every `create` garbage `init`, every source
matrix and every index list whose entries are within the source's
column range and whose length is at most the source's column count
(the proviso forced by the counterexample — `Mat::col` asserts
otherwise), `sortMatrixByColumn` returns a matrix with the same number
of rows and columns as the source (not truncated to the index-list
length); for every `c < len(indices)` column `c` of the result equals
column `indices[c]` of the source; and every column at index
`≥ len(indices)` holds exactly the unspecified `create` contents. -/
theorem C10_sort_matrix_columns (init : ℕ → ℕ → ℚ) (src : Mat) (indices : List ℕ)
    (h1 : indices.length ≤ src.cols) (h2 : ∀ x ∈ indices, x < src.cols) :
    ∃ M : Mat, sortMatrixByColumnInit init src indices = Except.ok M ∧
      M.rows = src.rows ∧ M.cols = src.cols ∧
      (∀ r c : ℕ, (hc : c < indices.length) →
        M.entry r c = src.entry r (indices.get ⟨c, hc⟩)) ∧
      (∀ r c : ℕ, indices.length ≤ c → M.entry r c = init r c) := by
  refine ⟨⟨src.rows, src.cols, fun r c =>
      if h : c < indices.length then src.entry r (indices.get ⟨c, h⟩) else init r c⟩,
    by rw [sortMatrixByColumnInit, if_pos ⟨h1, h2⟩], rfl, rfl, ?_, ?_⟩
  · intro r c hc
    show (if h : c < indices.length then src.entry r (indices.get ⟨c, h⟩) else init r c) = _
    rw [dif_pos hc]
  · intro r c hc
    show (if h : c < indices.length then src.entry r (indices.get ⟨c, h⟩) else init r c) = _
    rw [dif_neg (by omega)]

theorem C10_sort_matrix_columns_witness :
    ∃ M : Mat, sortMatrixByColumnInit (fun _ _ => 7) ⟨1, 2, fun _ j => (j : ℚ)⟩ [1]
        = Except.ok M ∧
      M.rows = (⟨1, 2, fun _ j => (j : ℚ)⟩ : Mat).rows ∧
      M.cols = (⟨1, 2, fun _ j => (j : ℚ)⟩ : Mat).cols ∧
      (∀ r c : ℕ, (hc : c < ([1] : List ℕ).length) →
        M.entry r c
          = (⟨1, 2, fun _ j => (j : ℚ)⟩ : Mat).entry r (([1] : List ℕ).get ⟨c, hc⟩)) ∧
      (∀ r c : ℕ, ([1] : List ℕ).length ≤ c → M.entry r c = 7) :=
  C10_sort_matrix_columns (fun _ _ => 7) ⟨1, 2, fun _ j => (j : ℚ)⟩ [1]
    (by decide) (by decide)

/-- C1 (counterexample): basis `W` of shape 2×1 (output dimensionality
`D = 2`, coefficient count `k = 1`), mean with `2 = D` elements (all 1),
coefficients `[[0]]`.  The claim predicts the mean is added — output
entry `(0, 1)` would be `0 + 1 = 1` — but the code compares the mean's
element count against `src.cols = k = 1`, adds no offset, and the
actual output entry `(0, 1)` is `0`. -/
theorem C1_counterexample :
    Except.map (fun R => R.entry 0 1)
        (subspace.reconstruct ⟨2, 1, fun i _ => if i = 0 then 1 else 0⟩
          ⟨1, 2, fun _ _ => 1⟩ ⟨1, 1, fun _ _ => 0⟩)
      = Except.ok 0 ∧
    (⟨1, 2, fun _ _ => (1 : ℚ)⟩ : Mat).total
      = (⟨2, 1, fun i _ => if i = 0 then (1 : ℚ) else 0⟩ : Mat).rows ∧
    (0 : ℚ) ≠ 0 + (⟨1, 2, fun _ _ => (1 : ℚ)⟩ : Mat).reshapeRow.entry 0 1 :=
  ⟨by decide, by decide, by decide⟩

/-- C1 (amended): for every basis `W` (D rows, k columns), every mean
and every coefficient matrix with `k` columns (`k > 0`),
`reconstruct(W, mean, coefficients)` returns `coefficients · Wᵗ` with
`D` columns, and the mean is added (broadcast per row) **iff** the
mean's element count equals `k` — the coefficient column count, not the
output dimensionality `D` as claimed; when the offset is taken and
`D ≠ k` the size check of `gemm`'s third operand fails instead of
returning. -/
theorem C1_reconstruct_offset_rule (W mean src : Mat)
    (hk : src.cols = W.cols) (_h0 : 0 < src.cols) :
    (mean.total ≠ src.cols →
      ∃ R : Mat, subspace.reconstruct W mean src = Except.ok R ∧
        R.rows = src.rows ∧ R.cols = W.rows ∧
        ∀ i j : ℕ, R.entry i j
          = ∑ k ∈ Finset.range src.cols, src.entry i k * W.entry j k) ∧
    (mean.total = src.cols → W.rows = mean.total →
      ∃ R : Mat, subspace.reconstruct W mean src = Except.ok R ∧
        R.rows = src.rows ∧ R.cols = W.rows ∧
        ∀ i j : ℕ, R.entry i j
          = (∑ k ∈ Finset.range src.cols, src.entry i k * W.entry j k)
            + mean.reshapeRow.entry 0 j) ∧
    (mean.total = src.cols → W.rows ≠ mean.total →
      subspace.reconstruct W mean src = Except.error Err.assertFail) := by
  refine ⟨?_, ?_, ?_⟩
  · intro hm
    refine ⟨src.mulT W, ?_, rfl, rfl, fun i j => rfl⟩
    simp only [subspace.reconstruct]
    rw [if_pos hk, if_neg (fun h => hm h.symm)]
  · intro hm hwr
    refine ⟨(src.mulT W).add ⟨src.rows, W.rows,
      fun _ j => mean.reshapeRow.entry 0 j⟩, ?_, rfl, rfl, fun i j => rfl⟩
    simp only [subspace.reconstruct]
    rw [if_pos hk, if_pos hm.symm, if_pos hwr]
  · intro hm hwr
    simp only [subspace.reconstruct]
    rw [if_pos hk, if_pos hm.symm, if_neg hwr]

theorem C1_reconstruct_offset_rule_witness :
    ∃ R : Mat, subspace.reconstruct ⟨2, 1, fun i _ => if i = 0 then 1 else 0⟩
        ⟨1, 2, fun _ _ => 1⟩ ⟨1, 1, fun _ _ => 0⟩ = Except.ok R ∧
      R.rows = 1 ∧ R.cols = 2 ∧
      ∀ i j : ℕ, R.entry i j = ∑ k ∈ Finset.range 1,
        (⟨1, 1, fun _ _ => (0 : ℚ)⟩ : Mat).entry i k *
          (⟨2, 1, fun i _ => if i = 0 then (1 : ℚ) else 0⟩ : Mat).entry j k :=
  (C1_reconstruct_offset_rule ⟨2, 1, fun i _ => if i = 0 then 1 else 0⟩
    ⟨1, 2, fun _ _ => 1⟩ ⟨1, 1, fun _ _ => 0⟩ rfl (by decide)).1 (by decide)

/-- C4: `LDA::project` and `LDA::reconstruct` delegate to the generic
subspace transform with an **empty mean** (`Mat()`), whose element
count 0 never matches the positive column count of the (orientation
transposed) input, so no centering offset is subtracted in projection —
the result is exactly `src · W` — and none is added in reconstruction
(`src · Wᵗ`), even though `compute` centered its data by class means. -/
theorem C4_empty_mean_transform (s : LDA) (srcP srcR : Mat)
    (hP : (orientRows s._dataAsRow srcP).cols = s._eigenvectors.rows)
    (hP0 : 0 < (orientRows s._dataAsRow srcP).cols)
    (hR : (orientRows s._dataAsRow srcR).cols = s._eigenvectors.cols)
    (hR0 : 0 < (orientRows s._dataAsRow srcR).cols) :
    LDA.project s srcP
      = subspace.project s._eigenvectors emptyMat (orientRows s._dataAsRow srcP) ∧
    LDA.reconstruct s srcR
      = subspace.reconstruct s._eigenvectors emptyMat (orientRows s._dataAsRow srcR) ∧
    (∃ Y : Mat, LDA.project s srcP = Except.ok Y ∧
      Y.rows = (orientRows s._dataAsRow srcP).rows ∧
      Y.cols = s._eigenvectors.cols ∧
      ∀ i j : ℕ, Y.entry i j
        = ∑ k ∈ Finset.range (orientRows s._dataAsRow srcP).cols,
            (orientRows s._dataAsRow srcP).entry i k * s._eigenvectors.entry k j) ∧
    (∃ X : Mat, LDA.reconstruct s srcR = Except.ok X ∧
      X.rows = (orientRows s._dataAsRow srcR).rows ∧
      X.cols = s._eigenvectors.rows ∧
      ∀ i j : ℕ, X.entry i j
        = ∑ k ∈ Finset.range (orientRows s._dataAsRow srcR).cols,
            (orientRows s._dataAsRow srcR).entry i k * s._eigenvectors.entry j k) := by
  refine ⟨rfl, rfl, ?_, ?_⟩
  · refine ⟨(orientRows s._dataAsRow srcP).mul s._eigenvectors, ?_, rfl, rfl,
      fun i j => rfl⟩
    rw [LDA.project]
    simp only [subspace.project]
    have hne : ¬ (emptyMat.total = (orientRows s._dataAsRow srcP).cols) := by
      show ¬ ((0 : ℕ) = (orientRows s._dataAsRow srcP).cols)
      omega
    rw [if_neg hne, if_pos hP]
  · refine ⟨(orientRows s._dataAsRow srcR).mulT s._eigenvectors, ?_, rfl, rfl,
      fun i j => rfl⟩
    rw [LDA.reconstruct]
    simp only [subspace.reconstruct]
    have hne : ¬ ((orientRows s._dataAsRow srcR).cols = emptyMat.total) := by
      show ¬ ((orientRows s._dataAsRow srcR).cols = (0 : ℕ))
      omega
    rw [if_pos hR, if_neg hne]

theorem C4_empty_mean_transform_witness :
    (LDA.project ⟨true, 1, ⟨2, 1, fun i _ => (i : ℚ)⟩, emptyMat⟩ ⟨1, 2, fun _ j => (j : ℚ)⟩
      = subspace.project ⟨2, 1, fun i _ => (i : ℚ)⟩ emptyMat
          (orientRows true ⟨1, 2, fun _ j => (j : ℚ)⟩)) ∧
    (LDA.reconstruct ⟨true, 1, ⟨2, 1, fun i _ => (i : ℚ)⟩, emptyMat⟩ ⟨1, 1, fun _ _ => 5⟩
      = subspace.reconstruct ⟨2, 1, fun i _ => (i : ℚ)⟩ emptyMat
          (orientRows true ⟨1, 1, fun _ _ => 5⟩)) ∧
    (∃ Y : Mat, LDA.project ⟨true, 1, ⟨2, 1, fun i _ => (i : ℚ)⟩, emptyMat⟩
        ⟨1, 2, fun _ j => (j : ℚ)⟩ = Except.ok Y ∧
      Y.rows = (orientRows true ⟨1, 2, fun _ j => (j : ℚ)⟩).rows ∧
      Y.cols = (⟨2, 1, fun i _ => (i : ℚ)⟩ : Mat).cols ∧
      ∀ i j : ℕ, Y.entry i j
        = ∑ k ∈ Finset.range (orientRows true ⟨1, 2, fun _ j => (j : ℚ)⟩).cols,
            (orientRows true ⟨1, 2, fun _ j => (j : ℚ)⟩).entry i k *
              (⟨2, 1, fun i _ => (i : ℚ)⟩ : Mat).entry k j) ∧
    (∃ X : Mat, LDA.reconstruct ⟨true, 1, ⟨2, 1, fun i _ => (i : ℚ)⟩, emptyMat⟩
        ⟨1, 1, fun _ _ => 5⟩ = Except.ok X ∧
      X.rows = (orientRows true ⟨1, 1, fun _ _ => (5 : ℚ)⟩).rows ∧
      X.cols = (⟨2, 1, fun i _ => (i : ℚ)⟩ : Mat).rows ∧
      ∀ i j : ℕ, X.entry i j
        = ∑ k ∈ Finset.range (orientRows true ⟨1, 1, fun _ _ => (5 : ℚ)⟩).cols,
            (orientRows true ⟨1, 1, fun _ _ => (5 : ℚ)⟩).entry i k *
              (⟨2, 1, fun i _ => (i : ℚ)⟩ : Mat).entry j k) :=
  C4_empty_mean_transform ⟨true, 1, ⟨2, 1, fun i _ => (i : ℚ)⟩, emptyMat⟩
    ⟨1, 2, fun _ j => (j : ℚ)⟩ ⟨1, 1, fun _ _ => 5⟩
    (by decide) (by decide) (by decide) (by decide)
